import Mathlib

/-!
Verification of the DCT-based lossy audio codec and the uniform-quantization
codec of this repository (bit_stream/src/wav_dct_enc.cpp, wav_dct_dec.cpp,
wav_quant_enc.cpp, wav_quant_dec.cpp).

Machine arithmetic is embedded over Nat/Int with explicit wrapping where the
source narrows; double arithmetic of the DCT pipelines is embedded over the
real numbers, and purely discrete computations over the rationals/integers so
that they stay executable.
-/

namespace Codec

/-! ### Bit-level channel

The class BitStream lives in bit_stream.h, which is not part of the sources
available here; only its callers are.  The channel is therefore modelled from
the spec (§4.1): a stream of bits, written and read most-significant-bit
first. -/

/-- Modelled from the spec: bit_stream.h is missing from the sources; §4.1
says writeBits appends the `width` least-significant bits of `value`,
most-significant bit first.  `natToBits w v` is that bit pattern. -/
def natToBits : ℕ → ℕ → List Bool
  | 0, _ => []
  | w + 1, v => natToBits w (v / 2) ++ [v % 2 == 1]

/-- Modelled from the spec: readBits interprets consecutive bits as an
unsigned integer, most-significant bit first. -/
def bitsToNat (l : List Bool) : ℕ :=
  l.foldl (fun a b => 2 * a + b.toNat) 0

/-- Modelled from the spec: one writeBits call appends the `width`
least-significant bits of `value` to the stream. -/
def writeBits (stream : List Bool) (value width : ℕ) : List Bool :=
  stream ++ natToBits width value

/-- Modelled from the spec: one readBits call consumes the next `width` bits
and returns them as an unsigned integer; reading past the end of the stream
is an error (truncated stream). -/
def readBits (width : ℕ) (stream : List Bool) : Option (ℕ × List Bool) :=
  if width ≤ stream.length then
    some (bitsToNat (stream.take width), stream.drop width)
  else none

/-- Modelled from the spec: a sequence of writeBits calls, in order. -/
def writeAll (pairs : List (ℕ × ℕ)) (stream : List Bool) : List Bool :=
  pairs.foldl (fun s p => writeBits s p.1 p.2) stream

/-- Modelled from the spec: a sequence of readBits calls with the given
widths, in order, returning the values read and the remaining stream. -/
def readAll (widths : List ℕ) (stream : List Bool) : Option (List ℕ × List Bool) :=
  match widths with
  | [] => some ([], stream)
  | w :: ws =>
    match readBits w stream with
    | none => none
    | some (v, rest) =>
      match readAll ws rest with
      | none => none
      | some (vs, rest') => some (v :: vs, rest')

lemma natToBits_length (w v : ℕ) : (natToBits w v).length = w := by
  induction w generalizing v with
  | zero => rfl
  | succ w ih => simp [natToBits, ih]

lemma bitsToNat_natToBits (w v : ℕ) : bitsToNat (natToBits w v) = v % 2 ^ w := by
  induction w generalizing v with
  | zero => simp [natToBits, bitsToNat, Nat.mod_one]
  | succ w ih =>
    have hfold : bitsToNat (natToBits w (v / 2) ++ [v % 2 == 1]) =
        2 * bitsToNat (natToBits w (v / 2)) + (v % 2 == 1).toNat := by
      simp [bitsToNat, List.foldl_append]
    have hbit : (v % 2 == 1).toNat = v % 2 := by
      rcases Nat.mod_two_eq_zero_or_one v with h | h <;> simp [h]
    have hmod : v % 2 ^ (w + 1) = v % 2 + 2 * (v / 2 % 2 ^ w) := by
      rw [pow_succ, mul_comm (2 ^ w) 2, Nat.mod_mul]
    rw [natToBits, hfold, hbit, ih, hmod, Nat.add_comm]

lemma readBits_writeBits (w v : ℕ) (rest : List Bool) :
    readBits w (natToBits w v ++ rest) = some (v % 2 ^ w, rest) := by
  have hlen : (natToBits w v).length = w := natToBits_length w v
  rw [readBits, if_pos (by simp [hlen]), List.take_left' hlen, List.drop_left' hlen,
    bitsToNat_natToBits]

lemma writeAll_cons (p : ℕ × ℕ) (ps : List (ℕ × ℕ)) (s : List Bool) :
    writeAll (p :: ps) s = writeAll ps (writeBits s p.1 p.2) := rfl

lemma writeAll_eq_append (pairs : List (ℕ × ℕ)) (s : List Bool) :
    writeAll pairs s = s ++ writeAll pairs [] := by
  induction pairs generalizing s with
  | nil => simp [writeAll]
  | cons p ps ih =>
    rw [writeAll_cons, writeAll_cons, ih (writeBits s p.1 p.2), ih (writeBits [] p.1 p.2)]
    simp [writeBits]

lemma readAll_writeAll (pairs : List (ℕ × ℕ)) (rest : List Bool)
    (h : ∀ p ∈ pairs, p.1 < 2 ^ p.2) :
    readAll (pairs.map Prod.snd) (writeAll pairs [] ++ rest) =
      some (pairs.map Prod.fst, rest) := by
  induction pairs generalizing rest with
  | nil => simp [writeAll, readAll]
  | cons p ps ih =>
    have henc : writeAll (p :: ps) [] = natToBits p.2 p.1 ++ writeAll ps [] := by
      rw [writeAll_cons, writeAll_eq_append]
      simp [writeBits]
    have hv : p.1 % 2 ^ p.2 = p.1 := Nat.mod_eq_of_lt (h p (by simp))
    rw [List.map_cons, henc, List.append_assoc, readAll, readBits_writeBits, hv]
    dsimp only
    rw [ih rest (fun q hq => h q (by simp [hq]))]
    simp

/-! ### Decoder header parsing and validation (wav_dct_dec.cpp, lines 57-82) -/

/-- Narrowing of a 32-bit wire value to a C int, as in
`int samplerate = bs.read_n_bits(32)`. -/
def toInt32 (v : ℕ) : ℤ :=
  if v < 2 ^ 31 then (v : ℤ) else (v : ℤ) - 2 ^ 32

/-- Narrowing of a 64-bit wire value to sf_count_t (int64), as in
`sf_count_t frames = bs.read_n_bits(64)`. -/
def toInt64 (v : ℕ) : ℤ :=
  if v < 2 ^ 63 then (v : ℤ) else (v : ℤ) - 2 ^ 64

/-- The five header fields as the decoder holds them after reading
(wav_dct_dec.cpp lines 57-61). -/
structure DctHeader where
  samplerate : ℤ
  frames : ℤ
  blockSize : ℕ
  numCoeffs : ℕ
  quantBits : ℤ

/-- Header fields obtained from the five wire values, with the narrowing
conversions of the decoder's variable types. -/
def parseHeader (w1 w2 w3 w4 w5 : ℕ) : DctHeader :=
  ⟨toInt32 w1, toInt64 w2, w3, w4, (w5 : ℤ)⟩

/-- The decoder's header validation (wav_dct_dec.cpp lines 64-82): the four
range checks, in source order.  The decoder reaches the block loop exactly
when this returns true. -/
def validateHeader (h : DctHeader) : Bool :=
  if h.samplerate < 1000 ∨ 192000 < h.samplerate then false
  else if h.blockSize < 64 ∨ 8192 < h.blockSize then false
  else if h.numCoeffs < 1 ∨ h.blockSize < h.numCoeffs then false
  else if h.quantBits < 4 ∨ 16 < h.quantBits then false
  else true

/-! ### Decoder block loop frame accounting (wav_dct_dec.cpp, lines 124-188)

Each iteration of `while (framesProcessed < frames)` emits
`framesToWrite = min(blockSize, frames - framesProcessed)` samples.
`blockCountsGo` runs that loop with the number of remaining frames as fuel
(each entered iteration consumes at least one frame, so the fuel is never
exhausted before the loop condition fails). -/

/-- One emitted-count per loop iteration of the decoder's block loop, fuelled
by the initial remaining-frame count. -/
def blockCountsGo (bs : ℕ) : ℕ → ℕ → List ℕ
  | 0, _ => []
  | fuel + 1, r =>
    if 0 < min bs r then
      min bs r :: blockCountsGo bs fuel (r - min bs r)
    else []

/-- The list of per-block emitted sample counts for a stream with `r` total
frames and block size `bs`. -/
def blockCounts (bs r : ℕ) : List ℕ :=
  blockCountsGo bs r r

lemma blockCountsGo_sum (bs : ℕ) (hbs : 1 ≤ bs) :
    ∀ fuel r, r ≤ fuel → (blockCountsGo bs fuel r).sum = r := by
  intro fuel
  induction fuel with
  | zero =>
    intro r hr
    simp only [blockCountsGo, List.sum_nil]
    omega
  | succ fuel ih =>
    intro r hr
    rw [blockCountsGo]
    split
    · rename_i h
      have hle : min bs r ≤ r := Nat.min_le_right bs r
      rw [List.sum_cons, ih (r - min bs r) (by omega)]
      omega
    · rename_i h
      simp only [List.sum_nil]
      omega

lemma blockCountsGo_length (bs : ℕ) (hbs : 1 ≤ bs) :
    ∀ fuel r, r ≤ fuel → (blockCountsGo bs fuel r).length = (r + bs - 1) / bs := by
  intro fuel
  induction fuel with
  | zero =>
    intro r hr
    have hr0 : r = 0 := by omega
    subst hr0
    simp only [blockCountsGo, List.length_nil]
    exact (Nat.div_eq_of_lt (by omega)).symm
  | succ fuel ih =>
    intro r hr
    rw [blockCountsGo]
    split
    · rename_i h
      have hle : min bs r ≤ r := Nat.min_le_right bs r
      rw [List.length_cons, ih (r - min bs r) (by omega)]
      rcases le_or_lt r bs with hcase | hcase
      · have hm : min bs r = r := by omega
        rw [hm, Nat.sub_self]
        have h1 : (0 + bs - 1) / bs = 0 := Nat.div_eq_of_lt (by omega)
        have h2 : (r + bs - 1) / bs = 1 :=
          Nat.div_eq_of_lt_le (by omega) (by omega)
        omega
      · have hm : min bs r = bs := by omega
        rw [hm]
        have h1 : r - bs + bs - 1 = r - 1 := by omega
        have h2 : r + bs - 1 = (r - 1) + bs := by omega
        rw [h1, h2, Nat.add_div_right _ (by omega)]
    · rename_i h
      have hr0 : r = 0 := by omega
      subst hr0
      simp only [List.length_nil]
      exact (Nat.div_eq_of_lt (by omega)).symm

/-! ### Claim theorems for the bit channel, header, and block loop -/

/-- C7: for every sequence of (value, width) pairs with 0 ≤ value < 2^width
and 1 ≤ width ≤ 64, writing the pairs with writeBits in order and then
reading with readBits using the same widths in the same order returns
exactly the original values, for any trailing padding appended by close(). -/
theorem bit_channel_roundtrip (pairs : List (ℕ × ℕ)) (padding : List Bool)
    (h : ∀ p ∈ pairs, p.1 < 2 ^ p.2 ∧ 1 ≤ p.2 ∧ p.2 ≤ 64) :
    readAll (pairs.map Prod.snd) (writeAll pairs [] ++ padding) =
      some (pairs.map Prod.fst, padding) :=
  readAll_writeAll pairs padding (fun p hp => (h p hp).1)

/-- Witness for C7 at the concrete write sequence (5,3), (9,5), (1,1) with a
7-bit zero padding to the byte boundary. -/
theorem bit_channel_roundtrip_witness :
    readAll [3, 5, 1]
        (writeAll [(5, 3), (9, 5), (1, 1)] [] ++ List.replicate 7 false) =
      some ([5, 9, 1], List.replicate 7 false) := by
  have h := bit_channel_roundtrip [(5, 3), (9, 5), (1, 1)] (List.replicate 7 false)
    (by decide)
  simpa using h

/-- C3: writing the five header fields with widths 32, 64, 16, 16, 8 in that
order (wav_dct_enc.cpp lines 135-139) and then reading the same widths in the
same order (wav_dct_dec.cpp lines 57-61) returns the identical five field
values, for fields in the valid ranges of §3. -/
theorem header_roundtrip (sr fr bs nc qb : ℕ) (rest : List Bool)
    (hsr1 : 1000 ≤ sr) (hsr2 : sr ≤ 192000) (hfr : fr < 2 ^ 64)
    (hbs1 : 64 ≤ bs) (hbs2 : bs ≤ 8192) (hnc1 : 1 ≤ nc) (hnc2 : nc ≤ bs)
    (hqb1 : 4 ≤ qb) (hqb2 : qb ≤ 16) :
    readAll [32, 64, 16, 16, 8]
        (writeAll [(sr, 32), (fr, 64), (bs, 16), (nc, 16), (qb, 8)] [] ++ rest) =
      some ([sr, fr, bs, nc, qb], rest) := by
  have h := readAll_writeAll [(sr, 32), (fr, 64), (bs, 16), (nc, 16), (qb, 8)] rest ?_
  · simpa using h
  · intro p hp
    simp only [List.mem_cons, List.not_mem_nil, or_false] at hp
    rcases hp with h' | h' | h' | h' | h' <;> subst h' <;> norm_num <;> omega

/-- Witness for C3 at a concrete valid header. -/
theorem header_roundtrip_witness :
    readAll [32, 64, 16, 16, 8]
        (writeAll [(44100, 32), (44100, 64), (1024, 16), (204, 16), (8, 8)] [] ++ []) =
      some ([44100, 44100, 1024, 204, 8], []) :=
  header_roundtrip 44100 44100 1024 204 8 [] (by norm_num) (by norm_num) (by norm_num)
    (by norm_num) (by norm_num) (by norm_num) (by norm_num) (by norm_num) (by norm_num)

/-- C4 counterexample: a header whose totalFrames field is negative (wire
value 2^64 - 1, i.e. C int64 value -1), violating the §3 constraint
totalFrames ≥ 0, nevertheless passes the decoder's validation: the decoder
does not fail fatally but reaches block processing. -/
theorem header_validation_skips_totalFrames :
    validateHeader (parseHeader 44100 (2 ^ 64 - 1) 1024 204 8) = true ∧
      (parseHeader 44100 (2 ^ 64 - 1) 1024 204 8).frames < 0 := by
  constructor
  · norm_num [validateHeader, parseHeader, toInt32, toInt64]
  · norm_num [parseHeader, toInt64]

/-- C4 amended: the decoder reaches block processing exactly when
sampleRate, blockSize, numCoeffs, and quantBits satisfy their §3
constraints; totalFrames is not validated at all. -/
theorem header_validation_iff (h : DctHeader) :
    validateHeader h = true ↔
      (1000 ≤ h.samplerate ∧ h.samplerate ≤ 192000 ∧
        64 ≤ h.blockSize ∧ h.blockSize ≤ 8192 ∧
        1 ≤ h.numCoeffs ∧ h.numCoeffs ≤ h.blockSize ∧
        4 ≤ h.quantBits ∧ h.quantBits ≤ 16) := by
  unfold validateHeader
  split_ifs with h1 h2 h3 h4 <;> simp <;> omega

/-- C2: for every blockSize in [64, 8192] the decoder's block loop emits
exactly totalFrames samples in total: each iteration emits
min(blockSize, remaining) samples and the loop stops once the count is
reached, discarding the zero-padded tail of the last block. -/
theorem decoder_emits_totalFrames (bs frames : ℕ) (h1 : 64 ≤ bs) (h2 : bs ≤ 8192) :
    (blockCounts bs frames).sum = frames :=
  blockCountsGo_sum bs (by omega) frames frames le_rfl

/-- Witness for C2 at blockSize 1024 and totalFrames 2500: exactly 2500
samples are emitted, across blocks of 1024, 1024 and 452 samples. -/
theorem decoder_emits_totalFrames_witness :
    (blockCounts 1024 2500).sum = 2500 ∧
      blockCounts 1024 2500 = [1024, 1024, 452] := by
  constructor
  · exact decoder_emits_totalFrames 1024 2500 (by norm_num) (by norm_num)
  · decide

/-- C10: for every blockSize ≥ 1 the decoder's block loop terminates after
exactly ceil(totalFrames / blockSize) iterations. -/
theorem decoder_block_iterations (bs frames : ℕ) (hbs : 1 ≤ bs) :
    (blockCounts bs frames).length = (frames + bs - 1) / bs :=
  blockCountsGo_length bs hbs frames frames le_rfl

/-- Witness for C10 at blockSize 1024 and totalFrames 2500: the loop runs
exactly 3 times. -/
theorem decoder_block_iterations_witness :
    (blockCounts 1024 2500).length = (2500 + 1024 - 1) / 1024 ∧
      (blockCounts 1024 2500).length = 3 := by
  refine ⟨decoder_block_iterations 1024 2500 (by norm_num), ?_⟩
  decide

/-! ### Coefficient quantization (wav_dct_enc.cpp lines 200-213,
wav_dct_dec.cpp lines 136-145)

The double arithmetic of the codec is embedded over the real numbers. -/

/-- The C round() function: round to nearest, halves away from zero. -/
noncomputable def cround (x : ℝ) : ℤ :=
  if 0 ≤ x then ⌊x + 1 / 2⌋ else ⌈x - 1 / 2⌉

/-- Integer clamping as in the encoder's two ifs (lines 210-211). -/
def clampZ (v lo hi : ℤ) : ℤ :=
  if v < lo then lo else if hi < v then hi else v

/-- maxLevel = (1 << quantBits) - 1 (wav_dct_enc.cpp line 201,
wav_dct_dec.cpp line 122). -/
def maxLevel (qb : ℕ) : ℤ := 2 ^ qb - 1

/-- Encoder quantization of one retained coefficient (lines 202-213):
normalize by the scale factor, map to [0, maxLevel] with round, clamp. -/
noncomputable def quantizeCoeff (c s : ℝ) (M : ℤ) : ℤ :=
  clampZ (cround ((c / s + 1) * (M : ℝ) / 2)) 0 M

/-- Decoder dequantization of one level (wav_dct_dec.cpp lines 140-144). -/
noncomputable def dequantizeCoeff (L : ℤ) (s : ℝ) (M : ℤ) : ℝ :=
  ((L : ℝ) * 2 / (M : ℝ) - 1) * s

/-- C1: for every retained coefficient c with |c| ≤ scaleFactor and every
quantBits in [4,16], quantizing and dequantizing c recovers it within one
quantization step: |dequantized - c| ≤ scaleFactor / maxLevel. -/
theorem dct_quantization_bounded (c s : ℝ) (qb : ℕ)
    (h4 : 4 ≤ qb) (h16 : qb ≤ 16) (hs : 0 < s) (hc : |c| ≤ s) :
    |dequantizeCoeff (quantizeCoeff c s (maxLevel qb)) s (maxLevel qb) - c| ≤
      s / ((maxLevel qb : ℤ) : ℝ) := by
  have hM1 : (1 : ℤ) ≤ maxLevel qb := by
    unfold maxLevel
    have h : (2 : ℤ) ^ 4 ≤ 2 ^ qb := pow_le_pow_right (by norm_num) h4
    omega
  set M : ℤ := maxLevel qb with hMdef
  have hMR : (0 : ℝ) < (M : ℝ) := by exact_mod_cast (by omega : (0 : ℤ) < M)
  set x : ℝ := c / s with hxdef
  have hxle : x ≤ 1 := (div_le_one hs).mpr (abs_le.mp hc).2
  have hxge : -1 ≤ x := by
    rw [hxdef, le_div_iff hs]
    linarith [(abs_le.mp hc).1]
  set t : ℝ := (x + 1) * (M : ℝ) / 2 with htdef
  have ht0 : 0 ≤ t := by
    apply div_nonneg _ (by norm_num)
    exact mul_nonneg (by linarith) hMR.le
  have htM : t ≤ (M : ℝ) := by
    rw [htdef, div_le_iff (by norm_num : (0 : ℝ) < 2)]
    nlinarith [hMR.le]
  have hcr : cround t = ⌊t + 1 / 2⌋ := by
    unfold cround
    rw [if_pos ht0]
  set L : ℤ := ⌊t + 1 / 2⌋ with hLdef
  have hL0 : 0 ≤ L := Int.le_floor.mpr (by push_cast; linarith)
  have hLM : L ≤ M := by
    have h : L < M + 1 := Int.floor_lt.mpr (by push_cast; linarith)
    omega
  have hquant : quantizeCoeff c s M = L := by
    unfold quantizeCoeff clampZ
    rw [← hxdef, ← htdef, hcr, if_neg (by omega), if_neg (by omega)]
  have hfl1 : (L : ℝ) ≤ t + 1 / 2 := Int.floor_le _
  have hfl2 : t + 1 / 2 < (L : ℝ) + 1 := Int.lt_floor_add_one _
  have hsne : s ≠ 0 := ne_of_gt hs
  have hMne : (M : ℝ) ≠ 0 := ne_of_gt hMR
  have hkey : dequantizeCoeff L s M - c = 2 * s / (M : ℝ) * ((L : ℝ) - t) := by
    unfold dequantizeCoeff
    have hct : c = (2 * t / (M : ℝ) - 1) * s := by
      rw [htdef, hxdef]
      field_simp
      ring
    rw [hct]
    field_simp
    ring
  rw [hquant, hkey, abs_mul, abs_of_pos (by positivity : (0 : ℝ) < 2 * s / (M : ℝ))]
  have habs2 : |(L : ℝ) - t| ≤ 1 / 2 := abs_le.mpr ⟨by linarith, by linarith⟩
  calc 2 * s / (M : ℝ) * |(L : ℝ) - t| ≤ 2 * s / (M : ℝ) * (1 / 2) :=
        mul_le_mul_of_nonneg_left habs2 (by positivity)
    _ = s / (M : ℝ) := by ring

/-- Witness for C1 at c = 1/3, scaleFactor = 1, quantBits = 4. -/
theorem dct_quantization_bounded_witness :
    |dequantizeCoeff (quantizeCoeff (1 / 3) 1 (maxLevel 4)) 1 (maxLevel 4) - 1 / 3| ≤
      (1 : ℝ) / ((maxLevel 4 : ℤ) : ℝ) :=
  dct_quantization_bounded (1 / 3) 1 4 (by norm_num) (by norm_num) (by norm_num)
    (by norm_num [abs_le])

/-! ### Decoder sample reconstruction (wav_dct_dec.cpp lines 156-176) -/

/-- Clamping of one reconstructed sample to the 16-bit range, as the two ifs
of wav_dct_dec.cpp lines 172-173. -/
noncomputable def clampSample (x : ℝ) : ℝ :=
  if x > 32767 then 32767 else if x < -32768 then -32768 else x

/-- samples[i] = (short)round(sample) after clamping (line 175), before the
narrowing cast. -/
noncomputable def emitSample (x : ℝ) : ℤ := cround (clampSample x)

/-- Wrap of an integer to a signed 16-bit value, as the C narrowing
conversion to short would perform. -/
def toInt16 (z : ℤ) : ℤ := (z + 32768) % 65536 - 32768

/-- C6: every emitted sample lies in [-32768, 32767]: a reconstruction
beyond a 16-bit bound is clamped to that bound, never wrapped, and the
narrowing cast to short is always in range (the identity). -/
theorem emitted_sample_in_range (x : ℝ) :
    (-32768 ≤ emitSample x ∧ emitSample x ≤ 32767 ∧
      toInt16 (emitSample x) = emitSample x) ∧
      (32767 < x → emitSample x = 32767) ∧
      (x < -32768 → emitSample x = -32768) := by
  refine ⟨?_, ?_, ?_⟩
  case refine_2 =>
    intro hx
    unfold emitSample clampSample
    rw [if_pos (by linarith)]
    unfold cround
    rw [if_pos (by norm_num), Int.floor_eq_iff]
    constructor <;> norm_num
  case refine_3 =>
    intro hx
    unfold emitSample clampSample
    rw [if_neg (by linarith), if_pos (by linarith)]
    unfold cround
    rw [if_neg (by norm_num), Int.ceil_eq_iff]
    constructor <;> norm_num
  have hy : -32768 ≤ clampSample x ∧ clampSample x ≤ 32767 := by
    unfold clampSample
    split_ifs with h1 h2 <;> constructor <;> linarith
  have hz : -32768 ≤ emitSample x ∧ emitSample x ≤ 32767 := by
    unfold emitSample cround
    split_ifs with h0
    · constructor
      · have h : (0 : ℤ) ≤ ⌊clampSample x + 1 / 2⌋ :=
          Int.le_floor.mpr (by push_cast; linarith)
        omega
      · have h : ⌊clampSample x + 1 / 2⌋ < 32768 :=
          Int.floor_lt.mpr (by push_cast; linarith [hy.2])
        omega
    · constructor
      · have h : (-32769 : ℤ) < ⌈clampSample x - 1 / 2⌉ :=
          Int.lt_ceil.mpr (by push_cast; linarith [hy.1])
        omega
      · have h : ⌈clampSample x - 1 / 2⌉ ≤ 0 :=
          Int.ceil_le.mpr (by push_cast; linarith)
        omega
  refine ⟨hz.1, hz.2, ?_⟩
  unfold toInt16
  omega

/-- Witness for C6: a reconstruction of 40000.5 clamps to 32767 and one of
-40000.5 clamps to -32768. -/
theorem emitted_sample_in_range_witness :
    emitSample 40000.5 = 32767 ∧ emitSample (-40000.5) = -32768 :=
  ⟨(emitted_sample_in_range 40000.5).2.1 (by norm_num),
   (emitted_sample_in_range (-40000.5)).2.2 (by norm_num)⟩

/-! ### DCT block pipeline (wav_dct_enc.cpp lines 145-213,
wav_dct_dec.cpp lines 110-176)

The forward and inverse transforms invoked through FFTW are embedded by
their defining formulas: REDFT10 (DCT-II) is
Y[k] = 2 * sum_j X[j] cos(pi (2j+1) k / (2N)), and REDFT01 (DCT-III) is
Y[j] = X[0] + 2 * sum_{k=1}^{N-1} X[k] cos(pi k (2j+1) / (2N)). -/

/-- FFTW REDFT10 (forward DCT-II) over a block of length N. -/
noncomputable def redft10 (N : ℕ) (X : ℕ → ℝ) (k : ℕ) : ℝ :=
  2 * ∑ j in Finset.range N, X j * Real.cos (Real.pi * (2 * j + 1) * k / (2 * (N : ℝ)))

/-- FFTW REDFT01 (inverse DCT-III) over a block of length N. -/
noncomputable def redft01 (N : ℕ) (X : ℕ → ℝ) (j : ℕ) : ℝ :=
  X 0 + 2 * ∑ k in Finset.Ico 1 N, X k * Real.cos (Real.pi * k * (2 * j + 1) / (2 * (N : ℝ)))

/-- Normalized input block: audioBlock[i] = samples[i] / 32768.0
(wav_dct_enc.cpp line 171). -/
noncomputable def audioBlockOf (samples : ℕ → ℤ) (i : ℕ) : ℝ :=
  (samples i : ℝ) / 32768

/-- Forward DCT output with the orthonormal scaling of lines 178-182:
coefficient 0 scaled by sqrt(1/N), the rest by sqrt(2/N). -/
noncomputable def dctNormed (N : ℕ) (samples : ℕ → ℤ) (k : ℕ) : ℝ :=
  if k = 0 then redft10 N (audioBlockOf samples) 0 * Real.sqrt (1 / (N : ℝ))
  else redft10 N (audioBlockOf samples) k * Real.sqrt (2 / (N : ℝ))

/-- The running maximum of |dctCoeffs[i]| over the retained coefficients,
starting from 0.0 (lines 185-189). -/
noncomputable def maxAbsCoeff (nc : ℕ) (cfs : ℕ → ℝ) : ℝ :=
  (List.range nc).foldl (fun m i => max m |cfs i|) 0

/-- The block's scale factor with the silence substitution of line 192:
a maximum below 1e-10 becomes 1.0. -/
noncomputable def encScale (N nc : ℕ) (samples : ℕ → ℤ) : ℝ :=
  if maxAbsCoeff nc (dctNormed N samples) < 1 / 10 ^ 10 then 1
  else maxAbsCoeff nc (dctNormed N samples)

/-- The quantization level written for retained coefficient i
(lines 200-213). -/
noncomputable def encLevel (N nc qb : ℕ) (samples : ℕ → ℤ) (i : ℕ) : ℤ :=
  quantizeCoeff (dctNormed N samples i) (encScale N nc samples) (maxLevel qb)

/-- The decoder's dequantized coefficient buffer (wav_dct_dec.cpp lines
131-145): dequantized below numCoeffs, zero above. -/
noncomputable def decCoeff (nc qb : ℕ) (scale : ℝ) (levels : ℕ → ℤ) (i : ℕ) : ℝ :=
  if i < nc then dequantizeCoeff (levels i) scale (maxLevel qb) else 0

/-- Undo of the orthonormal scaling (lines 147-153): coefficient 0 divided
by sqrt(1/N), coefficients 1..numCoeffs-1 divided by sqrt(2/N). -/
noncomputable def decUnscaled (N nc qb : ℕ) (scale : ℝ) (levels : ℕ → ℤ) (k : ℕ) : ℝ :=
  if k = 0 then decCoeff nc qb scale levels 0 / Real.sqrt (1 / (N : ℝ))
  else if k < nc then decCoeff nc qb scale levels k / Real.sqrt (2 / (N : ℝ))
  else decCoeff nc qb scale levels k

/-- One reconstructed output sample of a decoded block (lines 156-176):
inverse DCT, scaling by 1/(2N), denormalization by 32768, clamp and round. -/
noncomputable def decSample (N nc qb : ℕ) (scale : ℝ) (levels : ℕ → ℤ) (j : ℕ) : ℤ :=
  emitSample (redft01 N (decUnscaled N nc qb scale levels) j / (2 * (N : ℝ)) * 32768)

lemma redft10_zero_input (N k : ℕ) :
    redft10 N (audioBlockOf fun _ => 0) k = 0 := by
  unfold redft10 audioBlockOf
  simp

lemma dctNormed_zero_input (N k : ℕ) :
    dctNormed N (fun _ => 0) k = 0 := by
  unfold dctNormed
  rw [redft10_zero_input, redft10_zero_input]
  simp

lemma maxAbsCoeff_of_zero (nc : ℕ) (cfs : ℕ → ℝ) (h : ∀ i, cfs i = 0) :
    maxAbsCoeff nc cfs = 0 := by
  unfold maxAbsCoeff
  have hgen : ∀ l : List ℕ, List.foldl (fun m i => max m |cfs i|) 0 l = 0 := by
    intro l
    induction l with
    | nil => rfl
    | cons a l ih => simp [List.foldl_cons, h a, ih]
  exact hgen _

lemma encScale_silence (N nc : ℕ) : encScale N nc (fun _ => 0) = 1 := by
  unfold encScale
  rw [maxAbsCoeff_of_zero nc _ (fun i => dctNormed_zero_input N i)]
  norm_num

lemma encLevel_silence (N nc qb : ℕ) (hqb : 1 ≤ qb) (i : ℕ) :
    encLevel N nc qb (fun _ => 0) i = 2 ^ (qb - 1) := by
  have hq : qb - 1 + 1 = qb := by omega
  have hpow : (2 : ℤ) ^ (qb - 1) * 2 = 2 ^ qb := by rw [← pow_succ, hq]
  have hpow0 : (0 : ℤ) < 2 ^ (qb - 1) := pow_pos (by norm_num) _
  unfold encLevel quantizeCoeff
  rw [dctNormed_zero_input, encScale_silence]
  have harg : ((0 : ℝ) / 1 + 1) * ((maxLevel qb : ℤ) : ℝ) / 2 =
      ((maxLevel qb : ℤ) : ℝ) / 2 := by ring
  rw [harg]
  have hM0 : (0 : ℝ) ≤ ((maxLevel qb : ℤ) : ℝ) / 2 := by
    have h : (0 : ℤ) ≤ maxLevel qb := by
      unfold maxLevel
      omega
    positivity
  unfold cround
  rw [if_pos hM0]
  have hfl : ((maxLevel qb : ℤ) : ℝ) / 2 + 1 / 2 = ((2 ^ (qb - 1) : ℤ) : ℝ) := by
    unfold maxLevel
    push_cast
    have h2 : (2 : ℝ) ^ qb = 2 ^ (qb - 1) * 2 := by rw [← pow_succ, hq]
    rw [h2]
    ring
  rw [hfl, Int.floor_intCast]
  unfold clampZ maxLevel
  rw [if_neg (by omega), if_neg (by omega)]

lemma redft01_of_tail_zero (N : ℕ) (X : ℕ → ℝ) (j : ℕ)
    (h : ∀ k, 1 ≤ k → X k = 0) :
    redft01 N X j = X 0 := by
  unfold redft01
  have h0 : ∀ k ∈ Finset.Ico 1 N,
      X k * Real.cos (Real.pi * k * (2 * j + 1) / (2 * (N : ℝ))) = 0 := by
    intro k hk
    rw [Finset.mem_Ico] at hk
    rw [h k hk.1, zero_mul]
  rw [Finset.sum_eq_zero h0, mul_zero, add_zero]

/-- C5 amended: encoding an all-zero input block raises no error — the
maximum retained-coefficient magnitude is 0, below epsilon, so the scale
factor is substituted by 1.0 — and every retained coefficient quantizes to
the mid level 2^(quantBits-1); the dequantized coefficients are then
+1/maxLevel each, within one quantization step of zero, but the decoded
output block is not in general all-zero or near-zero (see the
counterexample, where it is constantly 137). -/
theorem silent_block_encodes_cleanly (N nc qb : ℕ)
    (hN1 : 64 ≤ N) (hN2 : N ≤ 8192) (hnc1 : 1 ≤ nc) (hnc2 : nc ≤ N)
    (hqb1 : 4 ≤ qb) (hqb2 : qb ≤ 16) :
    encScale N nc (fun _ => 0) = 1 ∧
      encLevel N nc qb (fun _ => 0) 0 = 2 ^ (qb - 1) ∧
      dequantizeCoeff (encLevel N nc qb (fun _ => 0) 0) (encScale N nc (fun _ => 0))
          (maxLevel qb) = 1 / ((maxLevel qb : ℤ) : ℝ) := by
  refine ⟨encScale_silence N nc, encLevel_silence N nc qb (by omega) 0, ?_⟩
  rw [encScale_silence N nc, encLevel_silence N nc qb (by omega) 0]
  unfold dequantizeCoeff maxLevel
  have hq : qb - 1 + 1 = qb := by omega
  have hM0 : (0 : ℝ) < (2 : ℝ) ^ qb - 1 := by
    have h : (2 : ℝ) ^ 1 ≤ 2 ^ qb := pow_le_pow_right₀ (by norm_num) (by omega)
    simp at h
    linarith
  have h2 : (2 : ℝ) ^ qb = 2 ^ (qb - 1) * 2 := by rw [← pow_succ, hq]
  push_cast
  field_simp
  linarith [h2]

/-- Witness for C5 (amended) at blockSize 64, numCoeffs 1, quantBits 4. -/
theorem silent_block_encodes_cleanly_witness :
    encScale 64 1 (fun _ => 0) = 1 ∧
      encLevel 64 1 4 (fun _ => 0) 0 = 2 ^ (4 - 1) ∧
      dequantizeCoeff (encLevel 64 1 4 (fun _ => 0) 0) (encScale 64 1 (fun _ => 0))
          (maxLevel 4) = 1 / ((maxLevel 4 : ℤ) : ℝ) :=
  silent_block_encodes_cleanly 64 1 4 (by norm_num) (by norm_num) (by norm_num)
    (by norm_num) (by norm_num) (by norm_num)

/-- C5 counterexample: the all-zero block with blockSize 64, numCoeffs 1,
quantBits 4 encodes to scale factor 1.0 and level 8, and that block decodes
to the constant output block whose every sample is 137 — not an all-zero or
near-zero (within rounding) block. -/
theorem silent_block_decodes_nonzero :
    encScale 64 1 (fun _ => 0) = 1 ∧
      encLevel 64 1 4 (fun _ => 0) 0 = 8 ∧
      decSample 64 1 4 1 (fun _ => 8) 0 = 137 ∧ (137 : ℤ) ≠ 0 := by
  refine ⟨encScale_silence 64 1, ?_, ?_, by norm_num⟩
  · rw [encLevel_silence 64 1 4 (by norm_num) 0]
    norm_num
  · have hsqrt : Real.sqrt (1 / ((64 : ℕ) : ℝ)) = 1 / 8 := by
      rw [show (1 / ((64 : ℕ) : ℝ)) = (1 / 8) ^ 2 by norm_num,
        Real.sqrt_sq (by norm_num : (0 : ℝ) ≤ 1 / 8)]
    have hU0 : decUnscaled 64 1 4 1 (fun _ => 8) 0 = 8 / 15 := by
      unfold decUnscaled decCoeff dequantizeCoeff maxLevel
      have hsqrt64 : Real.sqrt 64 = 8 := by
        rw [show (64 : ℝ) = 8 ^ 2 by norm_num,
          Real.sqrt_sq (by norm_num : (0 : ℝ) ≤ 8)]
      norm_num [hsqrt, hsqrt64]
    have hsum : redft01 64 (decUnscaled 64 1 4 1 (fun _ => 8)) 0 = 8 / 15 := by
      rw [redft01_of_tail_zero 64 _ 0 ?_, hU0]
      intro k hk
      unfold decUnscaled decCoeff
      rw [if_neg (by omega), if_neg (by omega), if_neg (by omega)]
    unfold decSample
    rw [hsum]
    push_cast
    rw [show (8 : ℝ) / 15 / (2 * 64) * 32768 = 2048 / 15 by norm_num]
    unfold emitSample clampSample
    rw [if_neg (by norm_num), if_neg (by norm_num)]
    unfold cround
    rw [if_pos (by norm_num)]
    rw [Int.floor_eq_iff]
    constructor <;> norm_num

/-! ### Retained-coefficient count (wav_dct_enc.cpp lines 104-106) -/

/-- Truncation toward zero, as the C cast of a double to an integer type. -/
def truncQ (q : ℚ) : ℤ := if 0 ≤ q then ⌊q⌋ else ⌈q⌉

/-- numCoeffs = (size_t)(blockSize * keepFraction), then floored at 1 and
capped at blockSize (wav_dct_enc.cpp lines 104-106). -/
def numCoeffsOf (blockSize : ℕ) (keepFraction : ℚ) : ℕ :=
  if (truncQ (blockSize * keepFraction)).toNat < 1 then 1
  else if blockSize < (truncQ (blockSize * keepFraction)).toNat then blockSize
  else (truncQ (blockSize * keepFraction)).toNat

/-- C8 counterexample: blockSize 1024 with keepFraction 0.2 yields
numCoeffs = 204, not the 205 stated by the spec's §8 scenario (the product
204.8 is truncated toward zero, not rounded). -/
theorem numCoeffs_keepFraction_example :
    numCoeffsOf 1024 (1 / 5) = 204 ∧ numCoeffsOf 1024 (1 / 5) ≠ 205 := by
  have h : numCoeffsOf 1024 (1 / 5) = 204 := by
    unfold numCoeffsOf truncQ
    norm_num
    rfl
  exact ⟨h, by rw [h]; norm_num⟩

/-- C8 amended: for every blockSize in [64, 8192] and keepFraction in (0,1],
the retained-coefficient count — blockSize * keepFraction truncated toward
zero, floored at 1 and capped at blockSize — satisfies
1 ≤ numCoeffs ≤ blockSize; blockSize 1024 with keepFraction 0.2 yields 204
(not 205). -/
theorem numCoeffs_invariant (bs : ℕ) (f : ℚ) (h1 : 64 ≤ bs) (h2 : bs ≤ 8192)
    (hf1 : 0 < f) (hf2 : f ≤ 1) :
    1 ≤ numCoeffsOf bs f ∧ numCoeffsOf bs f ≤ bs := by
  unfold numCoeffsOf
  split_ifs with ha hb <;> omega

/-- Witness for C8 (amended) at blockSize 1024, keepFraction 0.2. -/
theorem numCoeffs_invariant_witness :
    1 ≤ numCoeffsOf 1024 (1 / 5) ∧ numCoeffsOf 1024 (1 / 5) ≤ 1024 :=
  numCoeffs_invariant 1024 (1 / 5) (by norm_num) (by norm_num) (by norm_num)
    (by norm_num)

/-! ### Uniform-quantization codec (wav_quant_enc.cpp lines 13-39,
wav_quant_dec.cpp lines 12-34) -/

/-- The C round() function over exact rationals (round half away from
zero). -/
def croundQ (q : ℚ) : ℤ := if 0 ≤ q then ⌊q + 1 / 2⌋ else ⌈q - 1 / 2⌉

/-- quantizeToLevel from wav_quant_enc.cpp lines 13-39: for bits ≥ 16 map
the signed sample to unsigned by adding 32768; otherwise quantize against
step = 65535 / (2^bits - 1) and clamp to [0, 2^bits - 1]. -/
def quantizeToLevel (sample : ℤ) (bits : ℤ) : ℤ :=
  if 16 ≤ bits then sample + 32768
  else if bits ≤ 0 then 0
  else
    if croundQ ((sample + 32768 : ℚ) / (65535 / ((2 ^ bits.toNat : ℚ) - 1))) < 0 then 0
    else if 2 ^ bits.toNat ≤
        croundQ ((sample + 32768 : ℚ) / (65535 / ((2 ^ bits.toNat : ℚ) - 1))) then
      2 ^ bits.toNat - 1
    else croundQ ((sample + 32768 : ℚ) / (65535 / ((2 ^ bits.toNat : ℚ) - 1)))

/-- levelToSample from wav_quant_dec.cpp lines 12-34: for bits ≥ 16 map the
unsigned level back by subtracting 32768; otherwise reconstruct
minValue + level * step and narrow to short. -/
def levelToSample (level : ℤ) (bits : ℤ) : ℤ :=
  if 16 ≤ bits then toInt16 (level - 32768)
  else if bits ≤ 0 then 0
  else toInt16 (truncQ (-32768 + (level : ℚ) * (65535 / ((2 ^ bits.toNat : ℚ) - 1))))

/-- C9: in the uniform-quantization codec the bits = 16 case is exactly
lossless: quantizeToLevel maps a signed 16-bit sample s to the unsigned
level s + 32768 in [0, 65535], and levelToSample maps that level back to
s. -/
theorem quant16_lossless (s : ℤ) (h1 : -32768 ≤ s) (h2 : s ≤ 32767) :
    levelToSample (quantizeToLevel s 16) 16 = s ∧
      quantizeToLevel s 16 = s + 32768 ∧
      0 ≤ quantizeToLevel s 16 ∧ quantizeToLevel s 16 ≤ 65535 := by
  unfold quantizeToLevel levelToSample toInt16
  rw [if_pos (le_refl (16 : ℤ)), if_pos (le_refl (16 : ℤ))]
  refine ⟨?_, rfl, by omega, by omega⟩
  omega

/-- Witness for C9 at s = -5. -/
theorem quant16_lossless_witness :
    levelToSample (quantizeToLevel (-5) 16) 16 = -5 ∧
      quantizeToLevel (-5) 16 = -5 + 32768 ∧
      0 ≤ quantizeToLevel (-5) 16 ∧ quantizeToLevel (-5) 16 ≤ 65535 :=
  quant16_lossless (-5) (by norm_num) (by norm_num)

end Codec
